import Mathlib

/-!
Verification of the portfolio manager script (Portfoliomanager1.py).

The numerical core of the script is embedded shallowly over the rationals:
pandas Series and DataFrames become association lists from dates (naturals)
to rational values, numpy vector operations become List operations, and the
statistics (mean, population variance, sample covariance, beta) are written
exactly as numpy computes them (np.mean, np.std with ddof 0, np.cov with
ddof 1, np.var with ddof 0).  Floating-point rounding is abstracted away by
working in exact arithmetic; the special numpy behaviour of division by
zero (returning signed infinity or NaN instead of raising) is modelled
explicitly where a claim depends on it.
-/

namespace Portfolio

/-- Arithmetic mean of a list of rationals, as computed by np.mean.
For the empty list this is 0/0 = 0 in rational arithmetic. -/
def listMean (xs : List ℚ) : ℚ := xs.sum / xs.length

/-- Sum of squared deviations from the mean, the shared numerator of
np.std and np.var. -/
def sqDevSum (xs : List ℚ) : ℚ := (xs.map (fun x => (x - listMean xs) ^ 2)).sum

/-- Population variance, as computed by np.var with its default ddof 0. -/
def varPop (xs : List ℚ) : ℚ := sqDevSum xs / xs.length

/-- Sum of products of paired deviations from the respective means, the
numerator of np.cov. -/
def covRaw (xs ys : List ℚ) : ℚ :=
  ((xs.zip ys).map (fun p => (p.1 - listMean xs) * (p.2 - listMean ys))).sum

/-- Sample covariance, as computed by the off-diagonal entry of np.cov
with its default ddof 1. -/
def covSample (xs ys : List ℚ) : ℚ := covRaw xs ys / ((xs.length : ℚ) - 1)

/-- Population covariance (ddof 0); used to express the ratio with
identical ddof in numerator and denominator. -/
def covPop (xs ys : List ℚ) : ℚ := covRaw xs ys / xs.length

/-- Beta of the portfolio exactly as line 84 of the source computes it:
np.cov(portfolio, market)[0][1] / np.var(market), that is sample
covariance (ddof 1) over population variance (ddof 0). -/
def beta (portfolio market : List ℚ) : ℚ := covSample portfolio market / varPop market

/-- Modelled from the spec: beta as the mathematical ratio
covariance / variance with the same normalization convention in numerator
and denominator (the common ddof factor cancels, so population/population
represents every identical-ddof choice). -/
def betaSameDdof (portfolio market : List ℚ) : ℚ :=
  covPop portfolio market / varPop market

/-- Outcome of the Sharpe-ratio division on line 78 of the source,
sharpe_ratio = portfolio_return / portfolio_risk, under numpy float64
semantics.  portfolio_risk = np.std(returns) is the square root of the
population variance, so it is zero exactly when the variance is zero; in
that case numpy float64 division returns +inf, -inf or nan according to
the sign of the numerator (emitting only a RuntimeWarning), and no
exception is ever raised.  When the variance is positive the division
yields an ordinary finite float; the value constructor records the exact
mean and variance determining it (the float is mean / sqrt variance). -/
inductive NpDivOutcome where
  | value (mean variance : ℚ)
  | posInf
  | negInf
  | nan
  deriving DecidableEq

/-- Result of the Sharpe-ratio computation of lines 75 to 78 on a given
portfolio daily-return series, classified per numpy division semantics. -/
def sharpeOutcome (portfolioDailyReturns : List ℚ) : NpDivOutcome :=
  let m := listMean portfolioDailyReturns
  let v := varPop portfolioDailyReturns
  if v = 0 then
    (if 0 < m then .posInf else if m < 0 then .negInf else .nan)
  else
    .value m v

/-! Helper lemmas about the statistics. -/

theorem listMean_map_mul (c : ℚ) (xs : List ℚ) :
    listMean (xs.map (fun x => c * x)) = c * listMean xs := by
  have h : (xs.map (fun x => c * x)).sum = c * xs.sum := by
    simpa using List.sum_map_mul_left xs id c
  simp [listMean, h, mul_div_assoc]

theorem zip_self_map (f : ℚ → ℚ) (xs : List ℚ) :
    xs.zip (xs.map f) = xs.map (fun x => (x, f x)) := by
  induction xs with
  | nil => rfl
  | cons a t ih => simp [ih]

theorem covRaw_map_double (p : List ℚ) :
    covRaw p (p.map (fun x => 2 * x)) = 2 * sqDevSum p := by
  unfold covRaw sqDevSum
  rw [zip_self_map, List.map_map, listMean_map_mul, ← List.sum_map_mul_left]
  apply congrArg
  apply List.map_congr_left
  intro x _
  simp only [Function.comp]
  ring

theorem sqDevSum_map_double (p : List ℚ) :
    sqDevSum (p.map (fun x => 2 * x)) = 4 * sqDevSum p := by
  unfold sqDevSum
  rw [List.map_map, listMean_map_mul, ← List.sum_map_mul_left]
  apply congrArg
  apply List.map_congr_left
  intro x _
  simp only [Function.comp]
  ring

theorem varPop_map_double (p : List ℚ) :
    varPop (p.map (fun x => 2 * x)) = 4 * sqDevSum p / p.length := by
  simp [varPop, sqDevSum_map_double]

theorem listMean_replicate (n : ℕ) (c : ℚ) (h : 1 ≤ n) :
    listMean (List.replicate n c) = c := by
  have hn : (n : ℚ) ≠ 0 := by
    have : 0 < n := by omega
    exact_mod_cast this.ne'
  rw [listMean, List.sum_replicate, List.length_replicate, nsmul_eq_mul]
  field_simp

theorem varPop_replicate (n : ℕ) (c : ℚ) (h : 1 ≤ n) :
    varPop (List.replicate n c) = 0 := by
  rw [varPop, sqDevSum, listMean_replicate n c h]
  simp

/-- C2: on a constant daily-return series (zero population variance, hence
zero risk) the Sharpe computation of line 78 silently evaluates to +inf,
-inf or nan according to the sign of the mean return; it does not raise
DivisionByZero, because np.mean and np.std return numpy float64 scalars
and numpy float division by zero produces a non-finite value with only a
RuntimeWarning. -/
theorem sharpe_constant_series_silent_inf (n : ℕ) (c : ℚ) (h : 1 ≤ n) :
    sharpeOutcome (List.replicate n c) =
      (if 0 < c then NpDivOutcome.posInf
       else if c < 0 then NpDivOutcome.negInf else NpDivOutcome.nan) := by
  rw [sharpeOutcome]
  simp [varPop_replicate n c h, listMean_replicate n c h]

/-- Witness for C2: three days of constant daily return 1 (prices 1, 2, 4, 8)
give mean 1, risk 0, and the Sharpe computation returns positive infinity
rather than failing. -/
theorem sharpe_constant_series_silent_inf_witness :
    sharpeOutcome (List.replicate 3 1) = NpDivOutcome.posInf := by
  have h := sharpe_constant_series_silent_inf 3 1 (by norm_num)
  simpa using h

/-- C3 counterexample: for portfolio series [0, 1] and benchmark series
[0, 1], line 84 of the source (np.cov with ddof 1 over np.var with ddof 0)
yields beta 2, while the ratio with identical ddof in numerator and
denominator yields 1; the two disagree, refuting the claim that the code
computes the identical-ddof ratio. -/
theorem beta_ddof_mismatch_example :
    beta [0, 1] [0, 1] = 2 ∧ betaSameDdof [0, 1] [0, 1] = 1 ∧
      beta [0, 1] [0, 1] ≠ betaSameDdof [0, 1] [0, 1] := by
  refine ⟨?_, ?_, ?_⟩ <;>
    norm_num [beta, betaSameDdof, covSample, covPop, covRaw, varPop, sqDevSum,
      listMean, List.zip]

/-- C3 amended: the beta of line 84 equals the identical-ddof ratio
cov/var multiplied by the mismatch factor n/(n-1), where n is the number
of aligned observations, because np.cov defaults to ddof 1 while np.var
defaults to ddof 0. -/
theorem beta_ddof_mismatch_factor (p m : List ℚ) (hlen : p.length = m.length)
    (h2 : 2 ≤ p.length) (hv : varPop m ≠ 0) :
    beta p m = ((p.length : ℚ) / ((p.length : ℚ) - 1)) * betaSameDdof p m := by
  have hn : (p.length : ℚ) ≠ 0 := by
    have : 0 < p.length := by omega
    exact_mod_cast this.ne'
  have hn1 : (p.length : ℚ) - 1 ≠ 0 := by
    have h : (2 : ℚ) ≤ (p.length : ℚ) := by exact_mod_cast h2
    intro hc
    nlinarith
  unfold beta betaSameDdof covSample covPop
  field_simp
  ring

/-- Witness for C3: at portfolio [0, 1] and benchmark [0, 3] the ddof
mismatch factor is 2/(2-1) = 2. -/
theorem beta_ddof_mismatch_factor_witness :
    beta [0, 1] [0, 3] = ((2 : ℚ) / ((2 : ℚ) - 1)) * betaSameDdof [0, 1] [0, 3] := by
  have h := beta_ddof_mismatch_factor [0, 1] [0, 3] rfl (by norm_num)
    (by norm_num [varPop, sqDevSum, listMean])
  simpa using h

/-- C4 counterexample: with two aligned dates, portfolio returns [0, 1]
and benchmark returns exactly twice that, the code returns beta 1, not
2.0 (the mathematical identical-ddof value would be 1/2, and the ddof
mismatch factor n/(n-1) = 2 brings it to 1). -/
theorem beta_double_benchmark_not_two :
    beta [0, 1] ([0, 1].map (fun x => 2 * x)) = 1 ∧
      beta [0, 1] ([0, 1].map (fun x => 2 * x)) ≠ 2 := by
  constructor <;>
    norm_num [beta, covSample, covRaw, varPop, sqDevSum, listMean, List.zip]

/-- C4 amended: when the benchmark daily return equals exactly 2 times the
portfolio daily return on every aligned date, the beta computed by the
code equals n / (2 * (n - 1)) for n aligned observations: the
identical-ddof value 1/2 times the ddof mismatch factor n/(n-1).  It never
equals 2.0. -/
theorem beta_double_benchmark_value (p : List ℚ) (h2 : 2 ≤ p.length)
    (hv : varPop p ≠ 0) :
    beta p (p.map (fun x => 2 * x)) = (p.length : ℚ) / (2 * ((p.length : ℚ) - 1)) := by
  have hn : (p.length : ℚ) ≠ 0 := by
    have : 0 < p.length := by omega
    exact_mod_cast this.ne'
  have hn1 : (p.length : ℚ) - 1 ≠ 0 := by
    have h : (2 : ℚ) ≤ (p.length : ℚ) := by exact_mod_cast h2
    intro hc
    nlinarith
  have hS : sqDevSum p ≠ 0 := by
    intro h
    exact hv (by simp [varPop, h])
  unfold beta covSample
  rw [covRaw_map_double, varPop_map_double]
  field_simp
  ring

/-- Witness for C4: with three aligned dates of portfolio returns
[0, 1, 3] and benchmark twice that, beta evaluates to 3/4. -/
theorem beta_double_benchmark_value_witness :
    beta [0, 1, 3] ([0, 1, 3].map (fun x => 2 * x)) = 3 / 4 := by
  have h := beta_double_benchmark_value [0, 1, 3] (by norm_num)
    (by norm_num [varPop, sqDevSum, listMean])
  norm_num at h ⊢
  exact h

/-!
Allocation strategies.  The DataFrame of daily returns restricted to the
selected instruments is embedded as an association list of named columns
of rational values; pandas column selection is lookup by name.
-/

/-- Column of a DataFrame with the given name (pandas returns[s]); the
reference flow only ever looks up names that are present. -/
def colLookup (df : List (String × List ℚ)) (s : String) : List ℚ :=
  ((df.find? (fun p => p.1 == s)).map Prod.snd).getD []

/-- Column sum, pandas returns[s].sum(). -/
def dfColSum (df : List (String × List ℚ)) (s : String) : ℚ := (colLookup df s).sum

/-- Return-weighted weights, the inner function of lines 171 to 173:
returns[selected_stocks].sum() / returns[selected_stocks].sum().sum().
The result is the Series of per-column sums, each divided by the grand
total of those sums, indexed by the selected stocks in order. -/
def RWP (df : List (String × List ℚ)) (selected : List String) : List ℚ :=
  let colSums := selected.map (fun s => dfColSum df s)
  colSums.map (fun x => x / colSums.sum)

/-- Equal-weight weights, the inner function of lines 137 to 141: start
from np.zeros over the columns of the frame and, for each selected stock,
set the entry at returns.columns.get_loc(stock) to 1/len(selected). -/
def EWP_inner (df : List (String × List ℚ)) (selected : List String) : List ℚ :=
  selected.foldl
    (fun w s => w.set (List.indexOf s (df.map Prod.fst)) (1 / (selected.length : ℚ)))
    (List.replicate (df.map Prod.fst).length 0)

/-! Helper lemmas about the strategies. -/

theorem sum_map_div (l : List ℚ) (T : ℚ) : (l.map (fun x => x / T)).sum = l.sum / T := by
  simp only [div_eq_mul_inv]
  simpa using List.sum_map_mul_right l id T⁻¹

theorem rwp_sum (df : List (String × List ℚ)) (sel : List String)
    (hT : (sel.map (fun s => dfColSum df s)).sum ≠ 0) :
    (RWP df sel).sum = 1 := by
  unfold RWP
  rw [sum_map_div]
  exact div_self hT

theorem foldl_set_length (cols : List String) (v : ℚ) (sel : List String) (w : List ℚ) :
    (sel.foldl (fun acc s => acc.set (List.indexOf s cols) v) w).length = w.length := by
  induction sel generalizing w with
  | nil => rfl
  | cons s rest ih => simp [List.foldl_cons, ih]

theorem foldl_set_at (cols : List String) (v : ℚ) (hcols : cols.Nodup)
    (sel : List String) (w : List ℚ) (hw : w.length = cols.length)
    (hsub : ∀ s ∈ sel, s ∈ cols) (j : ℕ) (hj : j < cols.length) :
    (sel.foldl (fun acc s => acc.set (List.indexOf s cols) v) w)[j]? =
      some (if cols[j] ∈ sel then v else w.get ⟨j, hw ▸ hj⟩) := by
  induction sel generalizing w with
  | nil =>
    rw [List.foldl_nil, List.getElem?_eq_getElem (hw ▸ hj)]
    simp
  | cons s rest ih =>
    rw [List.foldl_cons]
    have hw2 : (w.set (List.indexOf s cols) v).length = cols.length := by
      rw [List.length_set]; exact hw
    rw [ih (w.set (List.indexOf s cols) v) hw2 (fun t ht => hsub t (List.mem_cons_of_mem _ ht))]
    by_cases hrest : cols[j] ∈ rest
    · simp [hrest]
    · by_cases hs : cols[j] = s
      · have hidx : List.indexOf s cols = j := by
          rw [← hs]
          simpa using List.indexOf_getElem hcols j hj
        simp [hrest, hs, hidx, List.get_eq_getElem, List.getElem_set]
      · have hne : List.indexOf s cols ≠ j := by
          intro hc
          apply hs
          have hsc : s ∈ cols := hsub s (List.mem_cons_self s rest)
          have h1 : List.indexOf s cols < cols.length := List.indexOf_lt_length.mpr hsc
          have h2 := List.getElem_indexOf h1
          simp only [hc] at h2
          exact h2
        simp [hrest, hs, List.get_eq_getElem, List.getElem_set, hne]

theorem EWP_inner_eq_map (df : List (String × List ℚ)) (sel : List String)
    (hcols : (df.map Prod.fst).Nodup)
    (hsub : ∀ s ∈ sel, s ∈ df.map Prod.fst) :
    EWP_inner df sel =
      (df.map Prod.fst).map
        (fun c => if c ∈ sel then 1 / (sel.length : ℚ) else 0) := by
  apply List.ext_getElem
  · rw [EWP_inner, foldl_set_length]
    simp
  · intro j h1 h2
    have hj : j < (df.map Prod.fst).length := by simpa using h2
    have h := foldl_set_at (df.map Prod.fst) (1 / (sel.length : ℚ)) hcols sel
      (List.replicate (df.map Prod.fst).length 0) (by simp) hsub j hj
    have h4 : (EWP_inner df sel)[j]? = some (if (df.map Prod.fst)[j] ∈ sel
        then 1 / (sel.length : ℚ)
        else (List.replicate (df.map Prod.fst).length (0 : ℚ)).get ⟨j, by simpa using hj⟩) := h
    rw [List.getElem?_eq_getElem h1] at h4
    have h3 := Option.some.inj h4
    rw [h3]
    simp [List.get_eq_getElem]

theorem sum_map_ite_mem_list (cols sel : List String) (v : ℚ)
    (hc : cols.Nodup) (hs : sel.Nodup) (hsub : ∀ s ∈ sel, s ∈ cols) :
    (cols.map (fun c => if c ∈ sel then v else 0)).sum = sel.length * v := by
  rw [← List.sum_toFinset _ hc]
  have h1 : ∀ c, (if c ∈ sel then v else 0) = (if c ∈ sel.toFinset then v else 0) := by
    intro c
    simp [List.mem_toFinset]
  simp only [h1]
  rw [Finset.sum_ite_mem]
  have h2 : cols.toFinset ∩ sel.toFinset = sel.toFinset := by
    rw [Finset.inter_eq_right]
    intro a ha
    rw [List.mem_toFinset] at ha ⊢
    exact hsub a ha
  rw [h2, Finset.sum_const, List.toFinset_card_of_nodup hs, nsmul_eq_mul]

/-- C6: the equal-weight strategy yields, over the columns of the return
matrix in order, weight 1/N at every selected instrument (N the number of
selected instruments) and 0 at every column that is not selected. -/
theorem ewp_weights_uniform (df : List (String × List ℚ)) (sel : List String)
    (hcols : (df.map Prod.fst).Nodup) (hne : sel ≠ []) (hnodup : sel.Nodup)
    (hsub : ∀ s ∈ sel, s ∈ df.map Prod.fst) :
    EWP_inner df sel =
      (df.map Prod.fst).map
        (fun c => if c ∈ sel then 1 / (sel.length : ℚ) else 0) :=
  EWP_inner_eq_map df sel hcols hsub

/-- Witness for C6: two columns A, B with only A selected give weights
[1, 0]. -/
theorem ewp_weights_uniform_witness :
    EWP_inner [("A", [1, 2]), ("B", [3, 4])] ["A"] =
      ([("A", [(1 : ℚ), 2]), ("B", [3, 4])].map Prod.fst).map
        (fun c => if c ∈ ["A"] then 1 / (([("A") ].length : ℚ)) else 0) := by
  have h := ewp_weights_uniform [("A", [1, 2]), ("B", [3, 4])] ["A"]
    (by simp) (by simp) (by simp) (by simp)
  exact h

/-- C1 counterexample: with one trading date, instrument A returning 2 and
instrument B returning -1, the return-weighted strategy produces the
weight vector [2, -1]: it sums to 1 but has components outside [0, 1],
refuting the claim that every strategy keeps all weights in [0, 1]. -/
theorem rwp_weight_outside_unit_interval :
    RWP [("A", [2]), ("B", [-1])] ["A", "B"] = [2, -1] ∧
      ¬ (∀ w ∈ RWP [("A", [2]), ("B", [-1])] ["A", "B"], 0 ≤ w ∧ w ≤ 1) := by
  have h1 : RWP [("A", [2]), ("B", [-1])] ["A", "B"] = [2, -1] := by
    simp [RWP, dfColSum, colLookup]
    norm_num
  refine ⟨h1, ?_⟩
  intro hall
  have h2 := hall (-1) (by rw [h1]; simp)
  linarith [h2.1]

/-- C1 amended: the equal-weight strategy always produces weights summing
to 1 with every component in [0, 1], and the return-weighted strategy
produces weights summing to 1 whenever the grand total of summed returns
is nonzero, but its components can leave [0, 1] when some instrument has
negative summed returns; the most-diversified strategy delegates the sum
constraint and the [0, 1] bounds to the floating-point SLSQP optimizer
and is not modelled here. -/
theorem allocation_weights_sum_one (df df2 : List (String × List ℚ))
    (sel sel2 : List String)
    (hcols : (df.map Prod.fst).Nodup) (hne : sel ≠ []) (hnodup : sel.Nodup)
    (hsub : ∀ s ∈ sel, s ∈ df.map Prod.fst)
    (hT : (sel2.map (fun s => dfColSum df2 s)).sum ≠ 0) :
    ((EWP_inner df sel).sum = 1 ∧ ∀ w ∈ EWP_inner df sel, 0 ≤ w ∧ w ≤ 1) ∧
      (RWP df2 sel2).sum = 1 := by
  have hN : (1 : ℚ) ≤ (sel.length : ℚ) := by
    have : 1 ≤ sel.length := List.length_pos.mpr hne
    exact_mod_cast this
  have hmap := EWP_inner_eq_map df sel hcols hsub
  refine ⟨⟨?_, ?_⟩, rwp_sum df2 sel2 hT⟩
  · rw [hmap, sum_map_ite_mem_list _ _ _ hcols hnodup hsub]
    rw [mul_one_div]
    exact div_self (by linarith)
  · intro w hw
    rw [hmap] at hw
    obtain ⟨c, _, hc⟩ := List.mem_map.mp hw
    by_cases hcm : c ∈ sel
    · rw [if_pos hcm] at hc
      constructor
      · rw [← hc]
        positivity
      · rw [← hc]
        rw [div_le_one (by linarith)]
        exact hN
    · rw [if_neg hcm] at hc
      rw [← hc]
      norm_num

/-- Witness for C1: columns A, B both selected give equal weights summing
to 1 and inside [0, 1]; a separate single-column frame C with summed
return 2 gives return weights summing to 1. -/
theorem allocation_weights_sum_one_witness :
    ((EWP_inner [("A", [1]), ("B", [2])] ["A", "B"]).sum = 1 ∧
        ∀ w ∈ EWP_inner [("A", [1]), ("B", [2])] ["A", "B"], 0 ≤ w ∧ w ≤ 1) ∧
      (RWP [("C", [1, 1])] ["C"]).sum = 1 := by
  exact allocation_weights_sum_one [("A", [1]), ("B", [2])] [("C", [1, 1])]
    ["A", "B"] ["C"] (by simp) (by simp) (by simp) (by simp)
    (by simp [dfColSum, colLookup])

/-- C5: whenever the grand total of summed daily returns over the selected
instruments is nonzero, the return-weighted strategy assigns each selected
instrument the weight sum of its daily returns divided by the grand total;
consequently the weights sum to 1 and each weight times the grand total
recovers the summed daily return of its instrument (proportionality). -/
theorem rwp_weights_formula (df : List (String × List ℚ)) (sel : List String)
    (hT : (sel.map (fun s => dfColSum df s)).sum ≠ 0) :
    RWP df sel =
        sel.map (fun s => dfColSum df s / (sel.map (fun t => dfColSum df t)).sum) ∧
      (RWP df sel).sum = 1 ∧
      (RWP df sel).map (fun w => w * (sel.map (fun t => dfColSum df t)).sum) =
        sel.map (fun s => dfColSum df s) := by
  refine ⟨?_, rwp_sum df sel hT, ?_⟩
  · rw [RWP, List.map_map]
    rfl
  · rw [RWP, List.map_map, List.map_map]
    apply List.map_congr_left
    intro s _
    simp only [Function.comp]
    exact div_mul_cancel₀ _ hT

/-- Witness for C5: columns A (returns 1, 2) and B (return 3) give summed
returns 3 and 3, grand total 6, and return weights [1/2, 1/2]. -/
theorem rwp_weights_formula_witness :
    RWP [("A", [1, 2]), ("B", [3])] ["A", "B"] =
        ["A", "B"].map (fun s => dfColSum [("A", [1, 2]), ("B", [3])] s /
          (["A", "B"].map (fun t => dfColSum [("A", [1, 2]), ("B", [3])] t)).sum) ∧
      (RWP [("A", [1, 2]), ("B", [3])] ["A", "B"]).sum = 1 ∧
      (RWP [("A", [1, 2]), ("B", [3])] ["A", "B"]).map
          (fun w => w * (["A", "B"].map (fun t => dfColSum [("A", [1, 2]), ("B", [3])] t)).sum) =
        ["A", "B"].map (fun s => dfColSum [("A", [1, 2]), ("B", [3])] s) := by
  exact rwp_weights_formula [("A", [1, 2]), ("B", [3])] ["A", "B"]
    (by simp [dfColSum, colLookup]; norm_num)

/-!
Investment allocation.  calculate_investments (lines 200 to 204) receives
the transaction list, a weight vector and the Series of current prices;
it sums amount_invested over all transactions and builds the dict
mapping each price-index entry, zipped positionally with the weights, to
weight times total investment.  The dict (insertion-ordered, keys the
price index) is embedded as an association list; the dict collapses
duplicate keys, so statements about entry counts assume a duplicate-free
price index.
-/

/-- Transaction record (instrument, date, quantity, amount_invested),
matching the 4-tuples the script indexes positionally. -/
structure Transaction where
  stock : String
  date : ℕ
  quantity : ℚ
  amount_invested : ℚ

/-- Total invested capital, line 201: the sum of transaction[3] over all
transactions. -/
def totalInvestment (transactions : List Transaction) : ℚ :=
  (transactions.map (fun t => t.amount_invested)).sum

/-- calculate_investments, lines 200 to 204: dict comprehension over
zip(current_prices.index, weights) sending each stock to its positional
weight times the total investment.  Only the index (instrument labels in
order) of current_prices is consulted, never its price values. -/
def calculate_investments (transactions : List Transaction) (weights : List ℚ)
    (current_prices : List (String × ℚ)) : List (String × ℚ) :=
  ((current_prices.map Prod.fst).zip weights).map
    (fun p => (p.1, p.2 * totalInvestment transactions))

/-! Helper lemmas about zipping. -/

theorem map_snd_zip_take {α β : Type} (l1 : List α) (l2 : List β) :
    (l1.zip l2).map Prod.snd = l2.take l1.length := by
  induction l1 generalizing l2 with
  | nil => simp
  | cons a t ih =>
    cases l2 with
    | nil => simp
    | cons b u => simp [ih]

theorem calc_inv_snd (ts : List Transaction) (ws : List ℚ) (cps : List (String × ℚ)) :
    (calculate_investments ts ws cps).map Prod.snd =
      (ws.take cps.length).map (fun w => w * totalInvestment ts) := by
  unfold calculate_investments
  rw [List.map_map]
  have h1 : (Prod.snd ∘ fun p : String × ℚ => (p.1, p.2 * totalInvestment ts)) =
      (fun w => w * totalInvestment ts) ∘ Prod.snd := by
    funext p
    rfl
  rw [h1, ← List.map_map, map_snd_zip_take]
  simp

theorem calc_inv_sum (ts : List Transaction) (ws : List ℚ) (cps : List (String × ℚ)) :
    ((calculate_investments ts ws cps).map Prod.snd).sum =
      (ws.take cps.length).sum * totalInvestment ts := by
  rw [calc_inv_snd]
  simpa using List.sum_map_mul_right (ws.take cps.length) id (totalInvestment ts)

/-- C7 counterexample: with an empty weight vector, the instrument A
present in current_prices receives no entry at all in the returned
allocation (zip truncates), refuting the claim that for every weight
vector each instrument present in current_prices is mapped. -/
theorem calculate_investments_short_weights :
    calculate_investments [⟨"A", 1, 1, 100⟩] [] [("A", 5)] = [] ∧
      "A" ∈ ([(("A" : String), (5 : ℚ))].map Prod.fst) := by
  constructor
  · simp [calculate_investments]
  · simp

/-- C7 amended: provided the weight vector has at least as many components
as current_prices has instruments, calculate_investments keeps the
instruments of current_prices in order and assigns the i-th instrument
the i-th weight times the total invested (the sum of amount_invested over
all transactions). -/
theorem calculate_investments_alloc (ts : List Transaction) (ws : List ℚ)
    (cps : List (String × ℚ)) (h : cps.length ≤ ws.length) :
    (calculate_investments ts ws cps).map Prod.fst = cps.map Prod.fst ∧
      (calculate_investments ts ws cps).map Prod.snd =
        (ws.take cps.length).map (fun w => w * totalInvestment ts) := by
  refine ⟨?_, calc_inv_snd ts ws cps⟩
  unfold calculate_investments
  rw [List.map_map]
  have h2 : (Prod.fst ∘ fun p : String × ℚ => (p.1, p.2 * totalInvestment ts)) =
      Prod.fst := by
    funext p
    rfl
  rw [h2]
  exact List.map_fst_zip _ _ (by simpa using h)

/-- Witness for C7, the worked example of the spec: transactions
(A, d1, 10, 1000) and (B, d1, 5, 500), equal weights 1/2, current prices
for A and B; the allocation maps A to 750 and B to 750
(total invested 1500). -/
theorem calculate_investments_alloc_witness :
    (calculate_investments [⟨"A", 1, 10, 1000⟩, ⟨"B", 1, 5, 500⟩]
        [1 / 2, 1 / 2] [("A", 100), ("B", 50)]).map Prod.fst = ["A", "B"] ∧
      (calculate_investments [⟨"A", 1, 10, 1000⟩, ⟨"B", 1, 5, 500⟩]
        [1 / 2, 1 / 2] [("A", 100), ("B", 50)]).map Prod.snd = [750, 750] := by
  have h := calculate_investments_alloc [⟨"A", 1, 10, 1000⟩, ⟨"B", 1, 5, 500⟩]
    [1 / 2, 1 / 2] [("A", 100), ("B", 50)] (by norm_num)
  refine ⟨?_, ?_⟩
  · rw [h.1]
    simp
  · rw [h.2]
    norm_num [totalInvestment]

/-- C9: the allocation depends on the fetched current prices only through
the instrument labels and their order; two price Series with the same
index but arbitrary different price values yield identical allocations. -/
theorem investments_price_values_irrelevant (ts : List Transaction) (ws : List ℚ)
    (p1 p2 : List (String × ℚ)) (h : p1.map Prod.fst = p2.map Prod.fst) :
    calculate_investments ts ws p1 = calculate_investments ts ws p2 := by
  unfold calculate_investments
  rw [h]

/-- Witness for C9: prices 100 and 7 for the same single instrument give
the same allocation. -/
theorem investments_price_values_irrelevant_witness :
    calculate_investments [⟨"A", 1, 1, 100⟩] [1] [("A", 100)] =
      calculate_investments [⟨"A", 1, 1, 100⟩] [1] [("A", 7)] :=
  investments_price_values_irrelevant [⟨"A", 1, 1, 100⟩] [1] [("A", 100)]
    [("A", 7)] (by simp)

/-- C10 counterexample: weight vector [1, 0] (a valid weight vector: sums
to 1, components in [0, 1]) with a single-instrument price index has more
weights than instruments, yet the allocated amounts sum exactly to the
total invested, not strictly less, because the surplus weight is zero. -/
theorem investments_truncation_sum_not_less :
    ([(1 : ℚ), 0].length > ([(("A" : String), (5 : ℚ))]).length) ∧
      ([(1 : ℚ), 0].sum = 1) ∧
      ((calculate_investments [⟨"A", 1, 1, 100⟩] [1, 0] [("A", 5)]).map Prod.snd).sum =
        totalInvestment [⟨"A", 1, 1, 100⟩] ∧
      0 < totalInvestment [⟨"A", 1, 1, 100⟩] ∧
      ¬ ((calculate_investments [⟨"A", 1, 1, 100⟩] [1, 0] [("A", 5)]).map Prod.snd).sum <
          totalInvestment [⟨"A", 1, 1, 100⟩] := by
  norm_num [calculate_investments, totalInvestment]

/-- C10 amended: calculate_investments pairs weights with instruments
purely positionally and truncates to the shorter sequence with no error:
the allocation has exactly min(k, m) entries (duplicate-free price index)
and its amounts sum to the sum of the first k weights times the total
invested; when the weights sum to 1, this falls strictly short of
total_invested exactly when the dropped surplus weights have positive sum
and the total invested is positive. -/
theorem investments_zip_truncation (ts : List Transaction) (ws : List ℚ)
    (cps : List (String × ℚ)) (hnodup : (cps.map Prod.fst).Nodup) :
    (calculate_investments ts ws cps).length = min cps.length ws.length ∧
      ((calculate_investments ts ws cps).map Prod.snd).sum =
        (ws.take cps.length).sum * totalInvestment ts ∧
      (ws.sum = 1 → 0 < (ws.drop cps.length).sum → 0 < totalInvestment ts →
        ((calculate_investments ts ws cps).map Prod.snd).sum < totalInvestment ts) := by
  refine ⟨by simp [calculate_investments], calc_inv_sum ts ws cps, ?_⟩
  intro hsum hdrop hpos
  rw [calc_inv_sum]
  have hsplit : (ws.take cps.length).sum + (ws.drop cps.length).sum = ws.sum := by
    rw [← List.sum_append, List.take_append_drop]
  nlinarith

/-- Witness for C10: three weights [1/2, 1/4, 1/4] against two priced
instruments truncate to two entries whose amounts sum to 3/4 of the
invested 100, strictly less than 100. -/
theorem investments_zip_truncation_witness :
    (calculate_investments [⟨"A", 1, 1, 100⟩] [1 / 2, 1 / 4, 1 / 4]
        [("A", 5), ("B", 6)]).length = min 2 3 ∧
      ((calculate_investments [⟨"A", 1, 1, 100⟩] [1 / 2, 1 / 4, 1 / 4]
          [("A", 5), ("B", 6)]).map Prod.snd).sum =
        ([(1 : ℚ) / 2, 1 / 4, 1 / 4].take 2).sum *
          totalInvestment [⟨"A", 1, 1, 100⟩] ∧
      ((calculate_investments [⟨"A", 1, 1, 100⟩] [1 / 2, 1 / 4, 1 / 4]
          [("A", 5), ("B", 6)]).map Prod.snd).sum <
        totalInvestment [⟨"A", 1, 1, 100⟩] := by
  have h := investments_zip_truncation [⟨"A", 1, 1, 100⟩] [1 / 2, 1 / 4, 1 / 4]
    [("A", 5), ("B", 6)] (by simp)
  exact ⟨h.1, h.2.1, h.2.2 (by norm_num) (by norm_num) (by norm_num [totalInvestment])⟩

/-!
Data alignment.  update_data (lines 34 to 47) builds daily percentage
returns for the instrument frame and the market series (pct_change drops
the first observation), then reindexes the market returns to the
instrument dates and drops the missing rows, and finally restricts the
instrument frame to the surviving market dates with .loc.  Price series
are embedded as date-ascending association lists over ℕ dates.
-/

/-- Lookup of the row stored at a date.  pandas label lookup on a
duplicate-free index; find? takes the first matching row. -/
def lookupDate {α : Type} (l : List (ℕ × α)) (d : ℕ) : Option α :=
  (l.find? (fun p => p.1 == d)).map Prod.snd

/-- Row selection by an index list: the common effect of
reindex(idx).dropna() (when the values carry no NaN) and of .loc[idx]
(when every label of idx is present): keep exactly the rows at the dates
of idx that exist in the source, in idx order. -/
def selectDates {α : Type} (idx : List ℕ) (s : List (ℕ × α)) : List (ℕ × α) :=
  idx.filterMap (fun d => (lookupDate s d).map (fun v => (d, v)))

/-- pct_change().dropna() on a single price series: the return at each
date from the second one on is price today over price yesterday minus 1;
the first date, whose return is undefined, is dropped. -/
def seriesPctChange (ps : List (ℕ × ℚ)) : List (ℕ × ℚ) :=
  (ps.zip ps.tail).map (fun pr => (pr.2.1, pr.2.2 / pr.1.2 - 1))

/-- pct_change().dropna() on a price frame, rowwise over the columns. -/
def framePctChange (ps : List (ℕ × List ℚ)) : List (ℕ × List ℚ) :=
  (ps.zip ps.tail).map
    (fun pr => (pr.2.1, (pr.1.2.zip pr.2.2).map (fun q => (q.2 / q.1 - 1))))

/-- update_data, lines 34 to 47: instrument daily returns, market daily
returns reindexed to the instrument dates with missing rows dropped, and
the instrument frame restricted to the surviving market dates. -/
def update_data (stockPrices : List (ℕ × List ℚ)) (marketPrices : List (ℕ × ℚ)) :
    List (ℕ × List ℚ) × List (ℕ × ℚ) :=
  let daily_returns := framePctChange stockPrices
  let market_daily_returns :=
    selectDates (daily_returns.map Prod.fst) (seriesPctChange marketPrices)
  (selectDates (market_daily_returns.map Prod.fst) daily_returns, market_daily_returns)

/-! Helper lemmas about date selection. -/

theorem lookupDate_isSome {α : Type} (l : List (ℕ × α)) (d : ℕ) :
    (lookupDate l d).isSome = true ↔ d ∈ l.map Prod.fst := by
  rw [lookupDate, Option.isSome_map']
  rw [List.find?_isSome]
  simp [List.mem_map]

theorem selectDates_fst {α : Type} (idx : List ℕ) (s : List (ℕ × α)) :
    (selectDates idx s).map Prod.fst =
      idx.filter (fun d => decide (d ∈ s.map Prod.fst)) := by
  induction idx with
  | nil => rfl
  | cons d rest ih =>
    cases h : lookupDate s d with
    | none =>
      have hd : ¬ d ∈ s.map Prod.fst := by
        intro hm
        have h2 := (lookupDate_isSome s d).mpr hm
        rw [h] at h2
        simp at h2
      rw [selectDates, List.filterMap_cons_none, ← selectDates, ih, List.filter_cons]
      · simp [hd]
      · rw [h]
        rfl
    | some v =>
      have hd : d ∈ s.map Prod.fst := by
        apply (lookupDate_isSome s d).mp
        rw [h]
        rfl
      rw [selectDates, List.filterMap_cons_some (by rw [h]; rfl), ← selectDates,
        List.map_cons, ih, List.filter_cons]
      simp [hd]

theorem selectDates_fst_all {α : Type} (idx : List ℕ) (s : List (ℕ × α))
    (h : ∀ d ∈ idx, d ∈ s.map Prod.fst) :
    (selectDates idx s).map Prod.fst = idx := by
  rw [selectDates_fst]
  apply List.filter_eq_self.mpr
  intro d hd
  exact decide_eq_true (h d hd)

theorem pct_change_dates {α β : Type} (ps : List (ℕ × α)) (f : (ℕ × α) × (ℕ × α) → β) :
    ((ps.zip ps.tail).map (fun pr => (pr.2.1, f pr))).map Prod.fst =
      (ps.map Prod.fst).tail := by
  rw [List.map_map]
  have h1 : (Prod.fst ∘ fun pr : (ℕ × α) × (ℕ × α) => (pr.2.1, f pr)) =
      (Prod.fst ∘ Prod.snd) := by
    funext pr
    rfl
  rw [h1, ← List.map_map]
  rw [List.map_snd_zip ps ps.tail (by simp)]
  exact List.map_tail Prod.fst ps

/-- C8: for raw price inputs with strictly ascending instrument dates, the
pair returned by update_data is aligned: both outputs carry the same
ordered date index; that index is the instrument return dates filtered to
those also present among the benchmark return dates — i.e. the common
date intersection of the two derived return series, in ascending order,
so a date present in only one of the two return series appears in neither
output. -/
theorem update_data_aligned (sp : List (ℕ × List ℚ)) (mp : List (ℕ × ℚ))
    (hsort : (sp.map Prod.fst).Sorted (· < ·)) :
    ((update_data sp mp).1.map Prod.fst = (update_data sp mp).2.map Prod.fst) ∧
      (update_data sp mp).2.map Prod.fst =
        ((framePctChange sp).map Prod.fst).filter
          (fun d => decide (d ∈ (seriesPctChange mp).map Prod.fst)) ∧
      ((update_data sp mp).2.map Prod.fst).Sorted (· < ·) := by
  have hm2 : (update_data sp mp).2.map Prod.fst =
      ((framePctChange sp).map Prod.fst).filter
        (fun d => decide (d ∈ (seriesPctChange mp).map Prod.fst)) :=
    selectDates_fst ((framePctChange sp).map Prod.fst) (seriesPctChange mp)
  have hdates : (framePctChange sp).map Prod.fst = (sp.map Prod.fst).tail :=
    pct_change_dates sp _
  refine ⟨?_, hm2, ?_⟩
  · have hall : ∀ d ∈ (update_data sp mp).2.map Prod.fst,
        d ∈ (framePctChange sp).map Prod.fst := by
      intro d hd
      rw [hm2] at hd
      exact (List.mem_filter.mp hd).1
    exact selectDates_fst_all _ _ hall
  · rw [hm2, hdates]
    exact List.Sorted.filter _ (hsort.sublist (List.tail_sublist _))

/-- Witness for C8: instrument prices on dates 1, 2, 3, 4 and market
prices on dates 1, 3, 4 give instrument return dates 2, 3, 4 and market
return dates 3, 4; both outputs end up on the ordered common index 3, 4. -/
theorem update_data_aligned_witness :
    ((update_data [(1, [1]), (2, [2]), (3, [3]), (4, [4])]
          [(1, 1), (3, 1), (4, 1)]).1.map Prod.fst =
        (update_data [(1, [1]), (2, [2]), (3, [3]), (4, [4])]
          [(1, 1), (3, 1), (4, 1)]).2.map Prod.fst) ∧
      (update_data [(1, [1]), (2, [2]), (3, [3]), (4, [4])]
          [(1, 1), (3, 1), (4, 1)]).2.map Prod.fst =
        ((framePctChange [(1, [1]), (2, [2]), (3, [3]), (4, [4])]).map Prod.fst).filter
          (fun d => decide (d ∈
            (seriesPctChange [(1, 1), (3, 1), (4, 1)]).map Prod.fst)) ∧
      ((update_data [(1, [1]), (2, [2]), (3, [3]), (4, [4])]
          [(1, 1), (3, 1), (4, 1)]).2.map Prod.fst).Sorted (· < ·) :=
  update_data_aligned [(1, [1]), (2, [2]), (3, [3]), (4, [4])]
    [(1, 1), (3, 1), (4, 1)] (by decide)

end Portfolio
